import Mathlib

/-!
# Object life-cycle primitives of `eop/intrinsics.hpp`

A shallow embedding of the six function templates of `src/cpp/eop/intrinsics.hpp`
(`address_of` twice, `construct` twice, `destruct` twice) over an explicit model of
storage: every address holds a cell that is either raw or holds a live object, and
the C++ expressions the templates are built from (placement `new`, an explicit
destructor call, a `new`-expression, the destructor of `std::unique_ptr`) are
transitions on that storage.

Conventions.
* A reference parameter (`const U& initializer`, `U& finalizer`, the loop variable
  `const auto& v`) is the address it is bound to.
* The element types' own constructors and destructors are the parameter `sem`; they
  may read and change a global state (`world`) and a constructor may throw.
* The preconditions the source documents (placement construction needs raw storage,
  destruction needs a live object) are the points at which the model has no
  behaviour: the outcome is `undefined`.
* Every constructor call, destructor call, allocation and deallocation is appended
  to `trace`, so that "exactly once" and "in iteration order" are statements about
  a list.
-/

set_option linter.unusedVariables false
set_option linter.unusedSectionVars false

namespace eop

/-- Addresses of storage locations. -/
abbrev Addr := Nat

/-- One element of a container as the range-`for` loop sees it: the storage that the
loop variable `v` refers to (`&v`), and the element type that storage is declared
with. -/
structure Slot (Ty : Type) where
  addr : Addr
  decl : Ty
deriving DecidableEq, Repr

/-- An instance of `ContainerType<_Tp, Args...>`: the first template argument, the
remaining ones, and the elements in iteration order (`begin()` to `end()`). -/
structure Container (Ty : Type) where
  tp : Ty
  args : List Ty
  slots : List (Slot Ty)
deriving DecidableEq, Repr

/-- A value an object can have: a plain datum, or a container, which is what the
inner call `destruct(v)` of the finalizer overload needs `v` to be. -/
inductive Value (Ty V : Type) where
  | plain (v : V)
  | cont (c : Container Ty)
deriving DecidableEq, Repr

/-- A live object: its type and its value. -/
structure Object (Ty V : Type) where
  ty : Ty
  val : Value Ty V
deriving DecidableEq, Repr

/-- The two states of a storage location. -/
inductive Cell (Ty V : Type) where
  | raw
  | live (o : Object Ty V)
deriving DecidableEq, Repr

/-- What the primitives do to storage, recorded in the order it happens. -/
inductive Event (Ty : Type) where
  | allocated (a : Addr)
  | constructed (a : Addr) (T : Ty)
  | destroyed (a : Addr) (T : Ty)
  | deallocated (a : Addr)
deriving DecidableEq, Repr

/-- The machine state: storage, the global state the element types' constructors and
destructors act on, the record of events, and the blocks currently allocated on the
free store. -/
structure State (Ty V G : Type) where
  cell : Addr → Cell Ty V
  world : G
  trace : List (Event Ty)
  heap : List Addr

/-- How a call ends: it returns `r`, it leaves by an exception `e`, or it has no
defined behaviour. The state is the one the caller observes. -/
inductive Outcome (E σ α : Type) where
  | done (r : α) (s : σ)
  | thrown (e : E) (s : σ)
  | undefined

/-- The element types and the free store, which the header takes from its context:
`ctor T args` is the constructor `T(args...)` (no argument: default construction, one
argument of type `T`: copy construction), `dtor T` is `~T()`, `alloc` is the
allocation function behind `new` given the blocks in use, and `badAlloc` is what
`new` throws when `alloc` has no block. The concepts `constructible` and
`destructible` of `concepts.hpp` admit only types that have these operations, so the
type names `Ty` range over such types and every one of them has both. -/
structure Semantics (Ty V G E : Type) where
  ctor : Ty → List (Object Ty V) → G → Except E (Value Ty V) × G
  dtor : Ty → Value Ty V → G → G
  alloc : List Addr → Option Addr
  badAlloc : E

variable {Ty V G E : Type} [DecidableEq Ty]

/-- Storage `m` with the cell at `a` replaced by `c`. -/
def store (m : Addr → Cell Ty V) (a : Addr) (c : Cell Ty V) : Addr → Cell Ty V :=
  fun b => if b = a then c else m b

/-- The placement new-expression `new (a) T(args...)`. The storage at `a` must be raw
(the documented precondition of `construct`). If the constructor throws, no object
exists at `a` and the exception leaves with the constructor's effect on the world. -/
def placementNew (sem : Semantics Ty V G E) (a : Addr) (T : Ty) (args : List (Object Ty V))
    (s : State Ty V G) : Outcome E (State Ty V G) Unit :=
  match s.cell a with
  | .live _ => .undefined
  | .raw =>
    match sem.ctor T args s.world with
    | (.ok val, w) =>
      .done () { s with cell := store s.cell a (.live ⟨T, val⟩), world := w,
                        trace := s.trace ++ [.constructed a T] }
    | (.error e, w) => .thrown e { s with world := w }

/-- The explicit destructor call `v.~T()` on the storage at `a`. It needs a live
object of type `T` there (the documented precondition of `destruct`); the storage is
raw afterwards and stays where it is. -/
def destroyAt (sem : Semantics Ty V G E) (a : Addr) (T : Ty)
    (s : State Ty V G) : Outcome E (State Ty V G) Unit :=
  match s.cell a with
  | .raw => .undefined
  | .live o =>
    if o.ty = T then
      .done () { s with cell := store s.cell a .raw, world := sem.dtor T o.val s.world,
                        trace := s.trace ++ [.destroyed a T] }
    else .undefined

/-- The range-based loop `for (const auto& v : p) body(v);` over the elements `vs`:
the body runs on each element in order, and an exception or undefined behaviour in
one iteration ends the loop there. -/
def forEach {σ : Type} (body : Slot Ty → σ → Outcome E σ Unit) :
    List (Slot Ty) → σ → Outcome E σ Unit
  | [], s => .done () s
  | v :: vs, s =>
    match body v s with
    | .done _ s1 => forEach body vs s1
    | .thrown e s1 => .thrown e s1
    | .undefined => .undefined

/-- `void construct(const ContainerType<_Tp, Args...>& p)
{ for (const auto& v : p) { new (&v) _Tp(); } }`. -/
def construct (sem : Semantics Ty V G E) (p : Container Ty)
    (s : State Ty V G) : Outcome E (State Ty V G) Unit :=
  forEach (fun v s => placementNew sem v.addr p.tp [] s) p.slots s

/-- `void construct(const ContainerType<_Tp, Args...>& p, const U& initializer)
{ for (const auto& v : p) { new (&v) _Tp(initializer); } }`. The initializer is read
through its reference in every iteration; reading raw storage is undefined. -/
def construct_with (sem : Semantics Ty V G E) (p : Container Ty) (initializer : Addr)
    (s : State Ty V G) : Outcome E (State Ty V G) Unit :=
  forEach (fun v s =>
    match s.cell initializer with
    | .live o => placementNew sem v.addr p.tp [o] s
    | .raw => .undefined) p.slots s

/-- `void destruct(const ContainerType<_Tp, Args...>& p)
{ for (const auto& v : p) { v.~_Tp(); } }`. -/
def destruct (sem : Semantics Ty V G E) (p : Container Ty)
    (s : State Ty V G) : Outcome E (State Ty V G) Unit :=
  forEach (fun v s => destroyAt sem v.addr p.tp s) p.slots s

/-- The call `destruct(v)` in the body of the finalizer overload: it resolves to the
one-argument `destruct`, so the object `v` refers to is read as a container. Storage
that holds no container gives the call nothing to iterate over. -/
def destruct_element (sem : Semantics Ty V G E) (v : Slot Ty)
    (s : State Ty V G) : Outcome E (State Ty V G) Unit :=
  match s.cell v.addr with
  | .live ⟨_, .cont q⟩ => destruct sem q s
  | _ => .undefined

/-- `void destruct(const ContainerType<_Tp, Args...>& p, U& finalizer)
{ for (const auto& v : p) { destruct(v); } }`. -/
def destruct_with (sem : Semantics Ty V G E) (p : Container Ty) (finalizer : Addr)
    (s : State Ty V G) : Outcome E (State Ty V G) Unit :=
  forEach (fun v s => destruct_element sem v s) p.slots s

/-! ## Reference descriptions the code is compared with -/

/-- The effect on the world of running `~T()` once on the object each of the slots
`vs` holds in storage `m`, one slot after the other in list order. -/
def cleanupEffect (sem : Semantics Ty V G E) (T : Ty) (m : Addr → Cell Ty V) :
    List (Slot Ty) → G → G
  | [], w => w
  | v :: vs, w =>
    match m v.addr with
    | .live o => cleanupEffect sem T m vs (sem.dtor T o.val w)
    | .raw => cleanupEffect sem T m vs w

/-- The slots inside the elements of a container: for each of the slots `vs` that
holds a container in storage `m`, that container's own slots, in order. -/
def innerSlots (m : Addr → Cell Ty V) : List (Slot Ty) → List (Slot Ty)
  | [] => []
  | v :: vs =>
    match m v.addr with
    | .live ⟨_, .cont q⟩ => q.slots ++ innerSlots m vs
    | _ => innerSlots m vs

/-- The destructor calls on the slots inside the elements of a container, each with
the element type of the container it is a slot of, in order. -/
def innerEvents (m : Addr → Cell Ty V) : List (Slot Ty) → List (Event Ty)
  | [] => []
  | v :: vs =>
    match m v.addr with
    | .live ⟨_, .cont q⟩ =>
      q.slots.map (fun x => Event.destroyed x.addr q.tp) ++ innerEvents m vs
    | _ => innerEvents m vs

/-- One more call of the one-argument `destruct` after what has happened so far: if
the run so far has returned, the element `v` is read as a container and destructed;
a run that has ended otherwise stays as it is. -/
def thenDestruct (sem : Semantics Ty V G E) (o : Outcome E (State Ty V G) Unit)
    (v : Slot Ty) : Outcome E (State Ty V G) Unit :=
  match o with
  | .done _ s =>
    match s.cell v.addr with
    | .live ⟨_, .cont q⟩ => destruct sem q s
    | _ => .undefined
  | .thrown e s => .thrown e s
  | .undefined => .undefined

/-- The one-argument `destruct(v)` called on each element `v` of `p`, one after the
other in iteration order, with no finalizer anywhere. -/
def destruct_elements_in_order (sem : Semantics Ty V G E) (p : Container Ty)
    (s : State Ty V G) : Outcome E (State Ty V G) Unit :=
  p.slots.foldl (thenDestruct sem) (.done () s)

/-! ## Worked examples: element types and states the statements are evaluated on -/

/-- Element types of the examples: two plain types, a container type and the type
of a counting finalizer. -/
inductive ExTy where
  | int
  | real
  | vec
  | counter
deriving DecidableEq, Repr

/-- Constructors and destructors of the example types. Default construction gives
`int` the value 0, `real` the value 7, `counter` the count 0 and `vec` the empty
container; with one argument the argument's value is copied. Every constructor call
adds 1 to the world and every destructor call adds 100. Allocation hands out the
address after the largest one in use, from 100 on. -/
def exSem : Semantics ExTy Nat Nat Nat where
  ctor := fun T args w =>
    match args with
    | [o] => (.ok o.val, w + 1)
    | _ =>
      match T with
      | .int => (.ok (.plain 0), w + 1)
      | .real => (.ok (.plain 7), w + 1)
      | .counter => (.ok (.plain 0), w + 1)
      | .vec => (.ok (.cont ⟨.int, [], []⟩), w + 1)
  dtor := fun _ _ w => w + 100
  alloc := fun l => some (l.foldr max 99 + 1)
  badAlloc := 0

/-- As `exSem`, but the default constructor throws 42 when exactly one object has
been constructed before: the second construction of a run faults. -/
def faultySem : Semantics ExTy Nat Nat Nat where
  ctor := fun T args w =>
    match args with
    | [] => if w = 1 then (.error 42, w) else (.ok (.plain 0), w + 1)
    | _ => exSem.ctor T args w
  dtor := exSem.dtor
  alloc := exSem.alloc
  badAlloc := exSem.badAlloc

/-- A state in which all storage is raw and nothing has happened. -/
def exState : State ExTy Nat Nat :=
  { cell := fun _ => .raw, world := 0, trace := [], heap := [] }

/-- All storage raw except the address 9, which holds the `int` 5. -/
def exSeeded : State ExTy Nat Nat :=
  { exState with cell := store exState.cell 9 (.live ⟨.int, .plain 5⟩) }

/-- The addresses 0, 1 and 2 hold the `int`s 10, 11 and 12; all other storage is
raw. -/
def exLive : State ExTy Nat Nat :=
  { exState with cell := fun a => if a < 3 then .live ⟨.int, .plain (10 + a)⟩ else .raw }

/-- A container of three `int` slots at the addresses 0, 1 and 2. -/
def exInts : Container ExTy :=
  ⟨.int, [], [⟨0, .int⟩, ⟨1, .int⟩, ⟨2, .int⟩]⟩

/-- The `int` slot at address `a`. -/
def exSlot (a : Addr) : Slot ExTy := ⟨a, .int⟩

/-- A container of three slots at the addresses 0, 1 and 2, each declared to hold a
container. -/
def exNested : Container ExTy :=
  ⟨.vec, [], [⟨0, .vec⟩, ⟨1, .vec⟩, ⟨2, .vec⟩]⟩

/-- The addresses 0, 1, 2 hold containers of one `int` slot each, at 3, 4 and 5;
these hold the `int`s 3, 4, 5; the address 6 holds a counter that stands at 0. -/
def exNestedState : State ExTy Nat Nat :=
  { exState with
    cell := fun a =>
      if a < 3 then .live ⟨.vec, .cont ⟨.int, [], [⟨a + 3, .int⟩]⟩⟩
      else if a < 6 then .live ⟨.int, .plain a⟩
      else if a = 6 then .live ⟨.counter, .plain 0⟩
      else .raw }

/-- A container with the element types `int` and `real`: its slot at address 0 is
declared `int`, its slot at address 1 is declared `real`. -/
def exMixed : Container ExTy :=
  ⟨.int, [.real], [⟨0, .int⟩, ⟨1, .real⟩]⟩

/-- A container of one `int` slot at the address 0. -/
def exSingle : Container ExTy :=
  ⟨.int, [], [⟨0, .int⟩]⟩

/-! ## Basic facts about the transitions -/

theorem store_same (m : Addr → Cell Ty V) (a : Addr) (c : Cell Ty V) :
    store m a c a = c := by
  simp [store]

theorem store_other (m : Addr → Cell Ty V) (a b : Addr) (c : Cell Ty V) (h : b ≠ a) :
    store m a c b = m b := by
  simp [store, h]

/-- A placement new that returns found raw storage, ran the constructor successfully
and changed the state accordingly. -/
theorem placementNew_done (sem : Semantics Ty V G E) (a : Addr) (T : Ty)
    (args : List (Object Ty V)) (s s1 : State Ty V G) (r : Unit)
    (h : placementNew sem a T args s = .done r s1) :
    s.cell a = .raw ∧ ∃ val w, sem.ctor T args s.world = (.ok val, w) ∧
      s1 = { s with cell := store s.cell a (.live ⟨T, val⟩), world := w,
                    trace := s.trace ++ [.constructed a T] } := by
  unfold placementNew at h
  cases hc : s.cell a with
  | live o => simp [hc] at h
  | raw =>
    simp only [hc] at h
    rcases hk : sem.ctor T args s.world with ⟨res, w⟩
    cases res with
    | error e => simp [hk] at h
    | ok val =>
      simp only [hk] at h
      injection h with _ h2
      exact ⟨rfl, val, w, rfl, h2.symm⟩

/-- A placement new that throws found raw storage, the constructor threw, and only
the world changed. -/
theorem placementNew_thrown (sem : Semantics Ty V G E) (a : Addr) (T : Ty)
    (args : List (Object Ty V)) (s s1 : State Ty V G) (e : E)
    (h : placementNew sem a T args s = .thrown e s1) :
    s.cell a = .raw ∧ ∃ w, sem.ctor T args s.world = (.error e, w) ∧
      s1 = { s with world := w } := by
  unfold placementNew at h
  cases hc : s.cell a with
  | live o => simp [hc] at h
  | raw =>
    simp only [hc] at h
    rcases hk : sem.ctor T args s.world with ⟨res, w⟩
    cases res with
    | ok val => simp [hk] at h
    | error e1 =>
      simp only [hk] at h
      injection h with h1 h2
      subst h1
      exact ⟨rfl, w, rfl, h2.symm⟩

/-- A destructor call that returns found a live object of the named type and left
raw storage. -/
theorem destroyAt_done (sem : Semantics Ty V G E) (a : Addr) (T : Ty)
    (s s1 : State Ty V G) (r : Unit) (h : destroyAt sem a T s = .done r s1) :
    ∃ val, s.cell a = .live ⟨T, val⟩ ∧
      s1 = { s with cell := store s.cell a .raw, world := sem.dtor T val s.world,
                    trace := s.trace ++ [.destroyed a T] } := by
  unfold destroyAt at h
  cases hc : s.cell a with
  | raw => simp [hc] at h
  | live o =>
    simp only [hc] at h
    by_cases ht : o.ty = T
    · simp only [ht, if_true] at h
      injection h with _ h2
      obtain ⟨ty, val⟩ := o
      simp only at ht
      subst ht
      exact ⟨val, rfl, h2.symm⟩
    · simp [ht] at h

/-- A destructor call never throws. -/
theorem destroyAt_not_thrown (sem : Semantics Ty V G E) (a : Addr) (T : Ty)
    (s s1 : State Ty V G) (e : E) : destroyAt sem a T s ≠ .thrown e s1 := by
  unfold destroyAt
  cases hc : s.cell a with
  | raw => simp
  | live o =>
    by_cases ht : o.ty = T
    · simp [ht]
    · simp [ht]

/-- A destructor call on a live object of the named type returns. -/
theorem destroyAt_live (sem : Semantics Ty V G E) (a : Addr) (T : Ty)
    (s : State Ty V G) (val : Value Ty V) (h : s.cell a = .live ⟨T, val⟩) :
    destroyAt sem a T s =
      .done () { s with cell := store s.cell a .raw, world := sem.dtor T val s.world,
                        trace := s.trace ++ [.destroyed a T] } := by
  unfold destroyAt
  simp [h]

/-- The loop over a concatenation runs the first part, then the second. -/
theorem forEach_append {σ : Type} (body : Slot Ty → σ → Outcome E σ Unit)
    (xs ys : List (Slot Ty)) (s : σ) :
    forEach body (xs ++ ys) s =
      match forEach body xs s with
      | .done _ s1 => forEach body ys s1
      | .thrown e s1 => .thrown e s1
      | .undefined => .undefined := by
  induction xs generalizing s with
  | nil => simp [forEach]
  | cons x xs ih =>
    simp only [List.cons_append, forEach]
    cases hb : body x s with
    | done r s1 => simp [ih]
    | thrown e s1 => simp
    | undefined => simp

/-! ## The construction loops -/

/-- What a default-construction loop that ran to its end found and did: the elements
were distinct raw storage, each now holds an object of type `T` that `T()` produced,
nothing else changed, and the constructor calls are recorded in iteration order. -/
theorem constructLoop_done (sem : Semantics Ty V G E) (T : Ty) (vs : List (Slot Ty))
    (s s1 : State Ty V G)
    (h : forEach (fun v s => placementNew sem v.addr T [] s) vs s = .done () s1) :
    (vs.map Slot.addr).Nodup ∧
    (∀ v ∈ vs, s.cell v.addr = .raw) ∧
    (∀ v ∈ vs, ∃ val w w1, sem.ctor T [] w = (.ok val, w1) ∧
        s1.cell v.addr = .live ⟨T, val⟩) ∧
    (∀ a, a ∉ vs.map Slot.addr → s1.cell a = s.cell a) ∧
    s1.trace = s.trace ++ vs.map (fun v => Event.constructed v.addr T) ∧
    s1.heap = s.heap := by
  induction vs generalizing s with
  | nil =>
    simp only [forEach] at h
    injection h with _ h2
    subst h2
    simp
  | cons v vs ih =>
    simp only [forEach] at h
    cases hb : placementNew sem v.addr T [] s with
    | thrown e s2 => simp [hb] at h
    | undefined => simp [hb] at h
    | done r s2 =>
      simp only [hb] at h
      obtain ⟨hraw, val, w, hk, hs2⟩ := placementNew_done sem _ _ _ _ _ _ hb
      obtain ⟨hnd, hr, hl, hf, ht, hh⟩ := ih s2 h
      have hcell : s2.cell = store s.cell v.addr (.live ⟨T, val⟩) := by rw [hs2]
      have hne : ∀ u ∈ vs, u.addr ≠ v.addr := by
        intro u hu heq
        have h1 := hr u hu
        rw [hcell, heq, store_same] at h1
        cases h1
      have hnotin : v.addr ∉ vs.map Slot.addr := by
        intro hm
        obtain ⟨u, hu, hua⟩ := List.mem_map.1 hm
        exact hne u hu hua
      refine ⟨?_, ?_, ?_, ?_, ?_, ?_⟩
      · simpa [List.nodup_cons] using ⟨fun u hu => hne u hu, hnd⟩
      · intro u hu
        rcases List.mem_cons.1 hu with rfl | hu
        · exact hraw
        · have h1 := hr u hu
          rwa [hcell, store_other _ _ _ _ (hne u hu)] at h1
      · intro u hu
        rcases List.mem_cons.1 hu with rfl | hu
        · refine ⟨val, s.world, w, hk, ?_⟩
          rw [hf _ hnotin, hcell, store_same]
        · exact hl u hu
      · intro a ha
        have ha1 : a ≠ v.addr := fun e => ha (by simp [e])
        have ha2 : a ∉ vs.map Slot.addr := fun e => ha (by
          simp only [List.map_cons, List.mem_cons]; exact Or.inr e)
        rw [hf a ha2, hcell, store_other _ _ _ _ ha1]
      · rw [ht, hs2]
        simp
      · rw [hh, hs2]

/-- A default-construction loop over distinct raw storage whose constructor does not
throw in any world runs to its end. -/
theorem constructLoop_total (sem : Semantics Ty V G E) (T : Ty) (vs : List (Slot Ty))
    (s : State Ty V G)
    (hok : ∀ w, ∃ val w1, sem.ctor T [] w = (.ok val, w1))
    (hnd : (vs.map Slot.addr).Nodup) (hraw : ∀ v ∈ vs, s.cell v.addr = .raw) :
    ∃ s1, forEach (fun v s => placementNew sem v.addr T [] s) vs s = .done () s1 := by
  induction vs generalizing s with
  | nil => exact ⟨s, rfl⟩
  | cons v vs ih =>
    obtain ⟨val, w, hk⟩ := hok s.world
    have hv : s.cell v.addr = .raw := hraw v (by simp)
    have hb : placementNew sem v.addr T [] s =
        .done () { s with cell := store s.cell v.addr (.live ⟨T, val⟩), world := w,
                          trace := s.trace ++ [.constructed v.addr T] } := by
      unfold placementNew
      simp [hv, hk]
    simp only [List.map_cons, List.nodup_cons] at hnd
    simp only [forEach, hb]
    apply ih _ hnd.2
    intro u hu
    have hne : u.addr ≠ v.addr := by
      intro heq
      exact hnd.1 (heq ▸ List.mem_map_of_mem Slot.addr hu)
    show store s.cell v.addr _ u.addr = .raw
    rw [store_other _ _ _ _ hne]
    exact hraw u (by simp [hu])

/-- The body of the copy-construction loop while the initializer is the live object
`o` is the placement new with `o` as the argument. -/
theorem constructWith_body (sem : Semantics Ty V G E) (T : Ty) (ia : Addr)
    (o : Object Ty V) (v : Slot Ty) (s : State Ty V G) (hi : s.cell ia = .live o) :
    (match s.cell ia with
      | .live o => placementNew sem v.addr T [o] s
      | .raw => (Outcome.undefined : Outcome E (State Ty V G) Unit)) =
    placementNew sem v.addr T [o] s := by
  rw [hi]

/-- What a copy-construction loop that ran to its end found and did, the
initializer being the live object `o` at the start. -/
theorem constructWithLoop_done (sem : Semantics Ty V G E) (T : Ty) (ia : Addr)
    (o : Object Ty V) (vs : List (Slot Ty)) (s s1 : State Ty V G)
    (hi : s.cell ia = .live o)
    (h : forEach (fun v s =>
        match s.cell ia with
        | .live o => placementNew sem v.addr T [o] s
        | .raw => .undefined) vs s = .done () s1) :
    (vs.map Slot.addr).Nodup ∧
    (∀ v ∈ vs, s.cell v.addr = .raw) ∧
    (∀ v ∈ vs, ∃ val w w1, sem.ctor T [o] w = (.ok val, w1) ∧
        s1.cell v.addr = .live ⟨T, val⟩) ∧
    (∀ a, a ∉ vs.map Slot.addr → s1.cell a = s.cell a) ∧
    s1.trace = s.trace ++ vs.map (fun v => Event.constructed v.addr T) ∧
    s1.heap = s.heap := by
  induction vs generalizing s with
  | nil =>
    simp only [forEach] at h
    injection h with _ h2
    subst h2
    simp
  | cons v vs ih =>
    simp only [forEach] at h
    rw [constructWith_body sem T ia o v s hi] at h
    cases hb : placementNew sem v.addr T [o] s with
    | thrown e s2 => simp [hb] at h
    | undefined => simp [hb] at h
    | done r s2 =>
      simp only [hb] at h
      obtain ⟨hraw, val, w, hk, hs2⟩ := placementNew_done sem _ _ _ _ _ _ hb
      have hcell : s2.cell = store s.cell v.addr (.live ⟨T, val⟩) := by rw [hs2]
      have hia : ia ≠ v.addr := by
        intro heq
        rw [heq, hraw] at hi
        cases hi
      have hi2 : s2.cell ia = .live o := by
        rw [hcell, store_other _ _ _ _ hia]
        exact hi
      obtain ⟨hnd, hr, hl, hf, ht, hh⟩ := ih s2 hi2 h
      have hne : ∀ u ∈ vs, u.addr ≠ v.addr := by
        intro u hu heq
        have h1 := hr u hu
        rw [hcell, heq, store_same] at h1
        cases h1
      have hnotin : v.addr ∉ vs.map Slot.addr := by
        intro hm
        obtain ⟨u, hu, hua⟩ := List.mem_map.1 hm
        exact hne u hu hua
      refine ⟨?_, ?_, ?_, ?_, ?_, ?_⟩
      · simpa [List.nodup_cons] using ⟨fun u hu => hne u hu, hnd⟩
      · intro u hu
        rcases List.mem_cons.1 hu with rfl | hu
        · exact hraw
        · have h1 := hr u hu
          rwa [hcell, store_other _ _ _ _ (hne u hu)] at h1
      · intro u hu
        rcases List.mem_cons.1 hu with rfl | hu
        · refine ⟨val, s.world, w, hk, ?_⟩
          rw [hf _ hnotin, hcell, store_same]
        · exact hl u hu
      · intro a ha
        have ha1 : a ≠ v.addr := fun e => ha (by simp [e])
        have ha2 : a ∉ vs.map Slot.addr := fun e => ha (by
          simp only [List.map_cons, List.mem_cons]; exact Or.inr e)
        rw [hf a ha2, hcell, store_other _ _ _ _ ha1]
      · rw [ht, hs2]
        simp
      · rw [hh, hs2]

/-- A copy-construction loop over distinct raw storage, from a live initializer whose
type's copy constructor does not throw in any world, runs to its end. -/
theorem constructWithLoop_total (sem : Semantics Ty V G E) (T : Ty) (ia : Addr)
    (o : Object Ty V) (vs : List (Slot Ty)) (s : State Ty V G)
    (hi : s.cell ia = .live o)
    (hok : ∀ w, ∃ val w1, sem.ctor T [o] w = (.ok val, w1))
    (hnd : (vs.map Slot.addr).Nodup) (hraw : ∀ v ∈ vs, s.cell v.addr = .raw) :
    ∃ s1, forEach (fun v s =>
        match s.cell ia with
        | .live o => placementNew sem v.addr T [o] s
        | .raw => .undefined) vs s = .done () s1 := by
  induction vs generalizing s with
  | nil => exact ⟨s, rfl⟩
  | cons v vs ih =>
    obtain ⟨val, w, hk⟩ := hok s.world
    have hv : s.cell v.addr = .raw := hraw v (by simp)
    have hia : ia ≠ v.addr := by
      intro heq
      rw [heq, hv] at hi
      cases hi
    have hb : placementNew sem v.addr T [o] s =
        .done () { s with cell := store s.cell v.addr (.live ⟨T, val⟩), world := w,
                          trace := s.trace ++ [.constructed v.addr T] } := by
      unfold placementNew
      simp [hv, hk]
    simp only [List.map_cons, List.nodup_cons] at hnd
    simp only [forEach]
    rw [constructWith_body sem T ia o v s hi, hb]
    apply ih _ _ hnd.2
    · intro u hu
      have hne : u.addr ≠ v.addr := by
        intro heq
        exact hnd.1 (heq ▸ List.mem_map_of_mem Slot.addr hu)
      show store s.cell v.addr _ u.addr = .raw
      rw [store_other _ _ _ _ hne]
      exact hraw u (by simp [hu])
    · show store s.cell v.addr _ ia = .live o
      rw [store_other _ _ _ _ hia]
      exact hi

/-! ## The destruction loop -/

/-- The cleanup effect depends only on what the listed slots hold. -/
theorem cleanupEffect_congr (sem : Semantics Ty V G E) (T : Ty) (m m1 : Addr → Cell Ty V)
    (vs : List (Slot Ty)) (w : G) (h : ∀ v ∈ vs, m v.addr = m1 v.addr) :
    cleanupEffect sem T m vs w = cleanupEffect sem T m1 vs w := by
  induction vs generalizing w with
  | nil => rfl
  | cons v vs ih =>
    have hv : m v.addr = m1 v.addr := h v (by simp)
    have ht : ∀ u ∈ vs, m u.addr = m1 u.addr := fun u hu => h u (by simp [hu])
    simp only [cleanupEffect, hv]
    cases m1 v.addr with
    | raw => exact ih w ht
    | live o => exact ih _ ht

/-- A destruction loop does not leave by an exception. -/
theorem destructLoop_not_thrown (sem : Semantics Ty V G E) (T : Ty) (vs : List (Slot Ty))
    (s s1 : State Ty V G) (e : E) :
    forEach (fun v s => destroyAt sem v.addr T s) vs s ≠ .thrown e s1 := by
  induction vs generalizing s with
  | nil => simp [forEach]
  | cons v vs ih =>
    simp only [forEach]
    cases hb : destroyAt sem v.addr T s with
    | done r s2 => exact ih s2
    | thrown e2 s2 => exact absurd hb (destroyAt_not_thrown sem _ _ _ _ _)
    | undefined => simp

/-- What a destruction loop that ran to its end found and did: the elements were
distinct storage holding live objects of type `T`, each is raw now, nothing else
changed, the destructor calls are recorded in iteration order and their effects on
the world were applied in that order; the free store is untouched. -/
theorem destructLoop_done (sem : Semantics Ty V G E) (T : Ty) (vs : List (Slot Ty))
    (s s1 : State Ty V G)
    (h : forEach (fun v s => destroyAt sem v.addr T s) vs s = .done () s1) :
    (vs.map Slot.addr).Nodup ∧
    (∀ v ∈ vs, ∃ val, s.cell v.addr = .live ⟨T, val⟩) ∧
    (∀ v ∈ vs, s1.cell v.addr = .raw) ∧
    (∀ a, a ∉ vs.map Slot.addr → s1.cell a = s.cell a) ∧
    s1.trace = s.trace ++ vs.map (fun v => Event.destroyed v.addr T) ∧
    s1.world = cleanupEffect sem T s.cell vs s.world ∧
    s1.heap = s.heap := by
  induction vs generalizing s with
  | nil =>
    simp only [forEach] at h
    injection h with _ h2
    subst h2
    simp [cleanupEffect]
  | cons v vs ih =>
    simp only [forEach] at h
    cases hb : destroyAt sem v.addr T s with
    | thrown e s2 => simp [hb] at h
    | undefined => simp [hb] at h
    | done r s2 =>
      simp only [hb] at h
      obtain ⟨val, hlive, hs2⟩ := destroyAt_done sem _ _ _ _ _ hb
      obtain ⟨hnd, hl, hr, hf, ht, hw, hh⟩ := ih s2 h
      have hcell : s2.cell = store s.cell v.addr .raw := by rw [hs2]
      have hne : ∀ u ∈ vs, u.addr ≠ v.addr := by
        intro u hu heq
        obtain ⟨val1, h1⟩ := hl u hu
        rw [hcell, heq, store_same] at h1
        cases h1
      have hnotin : v.addr ∉ vs.map Slot.addr := by
        intro hm
        obtain ⟨u, hu, hua⟩ := List.mem_map.1 hm
        exact hne u hu hua
      refine ⟨?_, ?_, ?_, ?_, ?_, ?_, ?_⟩
      · simpa [List.nodup_cons] using ⟨fun u hu => hne u hu, hnd⟩
      · intro u hu
        rcases List.mem_cons.1 hu with rfl | hu
        · exact ⟨val, hlive⟩
        · obtain ⟨val1, h1⟩ := hl u hu
          rw [hcell, store_other _ _ _ _ (hne u hu)] at h1
          exact ⟨val1, h1⟩
      · intro u hu
        rcases List.mem_cons.1 hu with rfl | hu
        · rw [hf _ hnotin, hcell, store_same]
        · exact hr u hu
      · intro a ha
        have ha1 : a ≠ v.addr := fun e => ha (by simp [e])
        have ha2 : a ∉ vs.map Slot.addr := fun e => ha (by
          simp only [List.map_cons, List.mem_cons]; exact Or.inr e)
        rw [hf a ha2, hcell, store_other _ _ _ _ ha1]
      · rw [ht, hs2]
        simp
      · rw [hw]
        simp only [cleanupEffect, hlive]
        have hworld : s2.world = sem.dtor T val s.world := by rw [hs2]
        rw [hworld]
        apply cleanupEffect_congr
        intro u hu
        rw [hcell, store_other _ _ _ _ (hne u hu)]
      · rw [hh, hs2]

/-- A destruction loop over distinct storage holding live objects of type `T` runs
to its end. -/
theorem destructLoop_total (sem : Semantics Ty V G E) (T : Ty) (vs : List (Slot Ty))
    (s : State Ty V G) (hnd : (vs.map Slot.addr).Nodup)
    (hlive : ∀ v ∈ vs, ∃ val, s.cell v.addr = .live ⟨T, val⟩) :
    ∃ s1, forEach (fun v s => destroyAt sem v.addr T s) vs s = .done () s1 := by
  induction vs generalizing s with
  | nil => exact ⟨s, rfl⟩
  | cons v vs ih =>
    obtain ⟨val, hv⟩ := hlive v (by simp)
    simp only [List.map_cons, List.nodup_cons] at hnd
    simp only [forEach, destroyAt_live sem v.addr T s val hv]
    apply ih _ hnd.2
    intro u hu
    have hne : u.addr ≠ v.addr := by
      intro heq
      exact hnd.1 (heq ▸ List.mem_map_of_mem Slot.addr hu)
    obtain ⟨val1, h1⟩ := hlive u (by simp [hu])
    refine ⟨val1, ?_⟩
    show store s.cell v.addr _ u.addr = _
    rw [store_other _ _ _ _ hne]
    exact h1

/-- In the record of a destruction over distinct storage, the destructor call on any
one element occurs exactly once. -/
theorem destroyed_count_one (T : Ty) (vs : List (Slot Ty)) (v : Slot Ty)
    (hnd : (vs.map Slot.addr).Nodup) (hv : v ∈ vs) :
    (vs.map (fun u => Event.destroyed u.addr T)).count (Event.destroyed v.addr T) = 1 := by
  have hinj : Function.Injective (fun a : Addr => Event.destroyed a T) := by
    intro a b hab
    injection hab
  have hmap : vs.map (fun u => Event.destroyed u.addr T) =
      (vs.map Slot.addr).map (fun a : Addr => Event.destroyed a T) := by
    simp [List.map_map, Function.comp_def]
  rw [hmap]
  apply List.count_eq_one_of_mem (hnd.map hinj)
  exact List.mem_map_of_mem _ (List.mem_map_of_mem _ hv)

/-! ## The finalizer overload -/

/-- An inner call `destruct(v)` that returns read a container at `v` and ran the
one-argument `destruct` on it. -/
theorem destruct_element_done (sem : Semantics Ty V G E) (v : Slot Ty)
    (s s1 : State Ty V G) (r : Unit) (h : destruct_element sem v s = .done r s1) :
    ∃ ty q, s.cell v.addr = .live ⟨ty, .cont q⟩ ∧ destruct sem q s = .done () s1 := by
  unfold destruct_element at h
  cases hc : s.cell v.addr with
  | raw => simp [hc] at h
  | live o =>
    obtain ⟨ty, val⟩ := o
    cases val with
    | plain x => simp [hc] at h
    | cont q =>
      simp only [hc] at h
      exact ⟨ty, q, rfl, h⟩

/-- The inner call on an element that holds the container `q`. -/
theorem destruct_element_cont (sem : Semantics Ty V G E) (v : Slot Ty)
    (s : State Ty V G) (ty : Ty) (q : Container Ty)
    (h : s.cell v.addr = .live ⟨ty, .cont q⟩) :
    destruct_element sem v s = destruct sem q s := by
  unfold destruct_element
  simp [h]

/-- A completed one-argument `destruct` changed storage only by making slots of its
container raw. -/
theorem destruct_changes (sem : Semantics Ty V G E) (q : Container Ty)
    (s s1 : State Ty V G) (h : destruct sem q s = .done () s1) (a : Addr) :
    s1.cell a = s.cell a ∨ (s1.cell a = .raw ∧ a ∈ q.slots.map Slot.addr) := by
  obtain ⟨_, _, hr, hf, _⟩ := destructLoop_done sem q.tp q.slots s s1 h
  by_cases ha : a ∈ q.slots.map Slot.addr
  · obtain ⟨x, hx, rfl⟩ := List.mem_map.1 ha
    exact Or.inr ⟨hr x hx, ha⟩
  · exact Or.inl (hf a ha)

/-- The inner slots and the inner destructor calls depend only on what the listed
slots hold. -/
theorem inner_congr (m m1 : Addr → Cell Ty V) (vs : List (Slot Ty))
    (h : ∀ v ∈ vs, m v.addr = m1 v.addr) :
    innerSlots m vs = innerSlots m1 vs ∧ innerEvents m vs = innerEvents m1 vs := by
  induction vs with
  | nil => exact ⟨rfl, rfl⟩
  | cons v vs ih =>
    have hv : m v.addr = m1 v.addr := h v (by simp)
    obtain ⟨ih1, ih2⟩ := ih (fun u hu => h u (by simp [hu]))
    simp only [innerSlots, innerEvents, hv, ih1, ih2, and_self]

/-- The inner slots of a list whose head holds the container `q`. -/
theorem innerSlots_cons_cont (m : Addr → Cell Ty V) (v : Slot Ty) (vs : List (Slot Ty))
    (ty : Ty) (q : Container Ty) (h : m v.addr = .live ⟨ty, .cont q⟩) :
    innerSlots m (v :: vs) = q.slots ++ innerSlots m vs ∧
    innerEvents m (v :: vs) =
      q.slots.map (fun x => Event.destroyed x.addr q.tp) ++ innerEvents m vs := by
  simp [innerSlots, innerEvents, h]

/-- A slot of a container that one of the listed slots holds is an inner slot. -/
theorem mem_innerSlots (m : Addr → Cell Ty V) (vs : List (Slot Ty)) (u : Slot Ty)
    (ty : Ty) (q : Container Ty) (x : Slot Ty) (hu : u ∈ vs)
    (h : m u.addr = .live ⟨ty, .cont q⟩) (hx : x ∈ q.slots) : x ∈ innerSlots m vs := by
  induction vs with
  | nil => cases hu
  | cons t ts ih =>
    rcases List.mem_cons.1 hu with rfl | hu1
    · rw [(innerSlots_cons_cont m u ts ty q h).1]
      exact List.mem_append_left _ hx
    · have hrec := ih hu1
      simp only [innerSlots]
      split
      · exact List.mem_append_right _ hrec
      · exact hrec

/-- The finalizer overload does not leave by an exception. -/
theorem destructWithLoop_not_thrown (sem : Semantics Ty V G E) (vs : List (Slot Ty))
    (s s1 : State Ty V G) (e : E) :
    forEach (fun v s => destruct_element sem v s) vs s ≠ .thrown e s1 := by
  induction vs generalizing s with
  | nil => simp [forEach]
  | cons v vs ih =>
    simp only [forEach]
    cases hb : destruct_element sem v s with
    | done r s2 => exact ih s2
    | undefined => simp
    | thrown e2 s2 =>
      exfalso
      unfold destruct_element at hb
      cases hc : s.cell v.addr with
      | raw => simp [hc] at hb
      | live o =>
        obtain ⟨ty, val⟩ := o
        cases val with
        | plain x => simp [hc] at hb
        | cont q =>
          simp only [hc] at hb
          exact destructLoop_not_thrown sem q.tp q.slots s s2 e2 hb

/-- What a completed loop of the finalizer overload found and did: every element held
a container at the start; storage changed only by slots inside these containers
becoming raw, and all of these slots are raw; the recorded calls are the destructor
calls on these slots, element by element; the free store is untouched. -/
theorem destructWithLoop_done (sem : Semantics Ty V G E) (vs : List (Slot Ty))
    (s s1 : State Ty V G)
    (h : forEach (fun v s => destruct_element sem v s) vs s = .done () s1) :
    (∀ u ∈ vs, ∃ ty q, s.cell u.addr = .live ⟨ty, .cont q⟩) ∧
    (∀ a, s1.cell a = s.cell a ∨
        (s1.cell a = .raw ∧ a ∈ (innerSlots s.cell vs).map Slot.addr)) ∧
    (∀ x ∈ innerSlots s.cell vs, s1.cell x.addr = .raw) ∧
    s1.trace = s.trace ++ innerEvents s.cell vs ∧
    s1.heap = s.heap := by
  induction vs generalizing s with
  | nil =>
    simp only [forEach] at h
    injection h with _ h2
    subst h2
    simp [innerSlots, innerEvents]
  | cons v vs ih =>
    simp only [forEach] at h
    cases hb : destruct_element sem v s with
    | thrown e s2 => simp [hb] at h
    | undefined => simp [hb] at h
    | done r s2 =>
      simp only [hb] at h
      obtain ⟨ty, q, hv, hq⟩ := destruct_element_done sem v s s2 r hb
      obtain ⟨hel, hch, hraw, htr, hhp⟩ := ih s2 h
      obtain ⟨_, _, hqr, _, hqt, _, hqh⟩ := destructLoop_done sem q.tp q.slots s s2 hq
      have hq_ch := destruct_changes sem q s s2 hq
      have hsame : ∀ u ∈ vs, s2.cell u.addr = s.cell u.addr := by
        intro u hu
        obtain ⟨ty1, q1, h1⟩ := hel u hu
        rcases hq_ch u.addr with h2 | ⟨h2, _⟩
        · exact h2
        · rw [h1] at h2
          cases h2
      obtain ⟨hin, hev⟩ := inner_congr s2.cell s.cell vs hsame
      obtain ⟨hcs, hce⟩ := innerSlots_cons_cont s.cell v vs ty q hv
      refine ⟨?_, ?_, ?_, ?_, ?_⟩
      · intro u hu
        rcases List.mem_cons.1 hu with rfl | hu
        · exact ⟨ty, q, hv⟩
        · obtain ⟨ty1, q1, h1⟩ := hel u hu
          exact ⟨ty1, q1, (hsame u hu) ▸ h1⟩
      · intro a
        rw [hcs, List.map_append, List.mem_append]
        rcases hch a with h1 | ⟨h1, h2⟩
        · rcases hq_ch a with h3 | ⟨h3, h4⟩
          · exact Or.inl (h1.trans h3)
          · exact Or.inr ⟨h1.trans h3, Or.inl h4⟩
        · rw [hin] at h2
          exact Or.inr ⟨h1, Or.inr h2⟩
      · intro x hx
        rw [hcs, List.mem_append] at hx
        rcases hx with hx | hx
        · rcases hch x.addr with h1 | ⟨h1, _⟩
          · rw [h1]
            exact hqr x hx
          · exact h1
        · exact hraw x (hin ▸ hx)
      · rw [htr, hqt, hev, hce, List.append_assoc]
      · rw [hhp, hqh]

/-- The loop of the finalizer overload runs to its end when every element holds a
container, the slots inside these containers are distinct storage holding live
objects of their container's element type, and no element is itself such a slot. -/
theorem destructWithLoop_total (sem : Semantics Ty V G E) (vs : List (Slot Ty))
    (s : State Ty V G)
    (hel : ∀ u ∈ vs, ∃ ty q, s.cell u.addr = .live ⟨ty, .cont q⟩)
    (hlive : ∀ u ∈ vs, ∀ ty q, s.cell u.addr = .live ⟨ty, .cont q⟩ →
        ∀ x ∈ q.slots, ∃ val, s.cell x.addr = .live ⟨q.tp, val⟩)
    (hnd : ((innerSlots s.cell vs).map Slot.addr).Nodup)
    (hsep : ∀ u ∈ vs, u.addr ∉ (innerSlots s.cell vs).map Slot.addr) :
    ∃ s1, forEach (fun v s => destruct_element sem v s) vs s = .done () s1 := by
  induction vs generalizing s with
  | nil => exact ⟨s, rfl⟩
  | cons v vs ih =>
    obtain ⟨ty, q, hv⟩ := hel v (by simp)
    obtain ⟨hcs, _⟩ := innerSlots_cons_cont s.cell v vs ty q hv
    rw [hcs, List.map_append, List.nodup_append] at hnd
    obtain ⟨hndq, hndr, hdis⟩ := hnd
    have hsep1 : ∀ u ∈ v :: vs, u.addr ∉ q.slots.map Slot.addr ∧
        u.addr ∉ (innerSlots s.cell vs).map Slot.addr := by
      intro u hu
      have h1 := hsep u hu
      rw [hcs, List.map_append, List.mem_append, not_or] at h1
      exact h1
    obtain ⟨s2, hq⟩ := destructLoop_total sem q.tp q.slots s hndq (hlive v (by simp) ty q hv)
    obtain ⟨_, _, _, hqf, _⟩ := destructLoop_done sem q.tp q.slots s s2 hq
    have hsame : ∀ u ∈ vs, s2.cell u.addr = s.cell u.addr :=
      fun u hu => hqf _ (hsep1 u (by simp [hu])).1
    obtain ⟨hin, _⟩ := inner_congr s2.cell s.cell vs hsame
    simp only [forEach, destruct_element_cont sem v s ty q hv]
    have hq1 : destruct sem q s = .done () s2 := hq
    rw [hq1]
    apply ih s2
    · intro u hu
      obtain ⟨ty1, q1, h1⟩ := hel u (by simp [hu])
      exact ⟨ty1, q1, (hsame u hu).trans h1⟩
    · intro u hu ty1 q1 h1 x hx
      rw [hsame u hu] at h1
      obtain ⟨val, h2⟩ := hlive u (by simp [hu]) ty1 q1 h1 x hx
      refine ⟨val, ?_⟩
      have hxin : x ∈ innerSlots s.cell vs := mem_innerSlots s.cell vs u ty1 q1 x hu h1 hx
      have hxq : x.addr ∉ q.slots.map Slot.addr := by
        intro hm
        exact hdis hm (List.mem_map_of_mem Slot.addr hxin)
      rw [hqf _ hxq]
      exact h2
    · rw [hin]
      exact hndr
    · intro u hu
      rw [hin]
      exact (hsep1 u (by simp [hu])).2

/-- The loop of the finalizer overload is the left fold of `thenDestruct`. -/
theorem foldl_thenDestruct_stuck (sem : Semantics Ty V G E) (vs : List (Slot Ty))
    (o : Outcome E (State Ty V G) Unit) (h : ∀ r s, o ≠ .done r s) :
    vs.foldl (thenDestruct sem) o = o := by
  induction vs with
  | nil => rfl
  | cons v vs ih =>
    simp only [List.foldl_cons]
    cases o with
    | done r s => exact absurd rfl (h r s)
    | thrown e s => simpa [thenDestruct] using ih
    | undefined => simpa [thenDestruct] using ih

theorem forEach_eq_foldl_thenDestruct (sem : Semantics Ty V G E) (vs : List (Slot Ty))
    (s : State Ty V G) :
    forEach (fun v s => destruct_element sem v s) vs s =
      vs.foldl (thenDestruct sem) (.done () s) := by
  induction vs generalizing s with
  | nil => rfl
  | cons v vs ih =>
    simp only [forEach, List.foldl_cons]
    have hstep : thenDestruct sem (.done () s) v = destruct_element sem v s := by
      unfold thenDestruct destruct_element
      rfl
    rw [hstep]
    cases hb : destruct_element sem v s with
    | done r s2 => exact ih s2
    | thrown e s2 =>
      exact (foldl_thenDestruct_stuck sem vs _ (by intro r s3 hne; cases hne)).symm
    | undefined =>
      exact (foldl_thenDestruct_stuck sem vs _ (by intro r s3 hne; cases hne)).symm

/-! ## Claims about `construct` -/

/-- C1: for a container whose slots are all declared with the element type `T` and are
all raw, and `T` with the default-constructed value `d`: whenever `construct(c)`
completes without a fault, every slot of `c` holds a live object of its declared type
with value `d`; and it does complete when the slots are distinct storage and `T()`
does not throw. -/
theorem construct_default_value (sem : Semantics Ty V G E) (p : Container Ty)
    (d : Value Ty V) (s : State Ty V G)
    (hty : ∀ v ∈ p.slots, v.decl = p.tp)
    (hraw : ∀ v ∈ p.slots, s.cell v.addr = .raw)
    (hd : ∀ w val w1, sem.ctor p.tp [] w = (.ok val, w1) → val = d) :
    (∀ s1, construct sem p s = .done () s1 →
        ∀ v ∈ p.slots, s1.cell v.addr = .live ⟨v.decl, d⟩) ∧
    ((∀ w, ∃ val w1, sem.ctor p.tp [] w = (.ok val, w1)) →
        (p.slots.map Slot.addr).Nodup → ∃ s1, construct sem p s = .done () s1) := by
  constructor
  · intro s1 h v hv
    obtain ⟨_, _, hl, _⟩ := constructLoop_done sem p.tp p.slots s s1 h
    obtain ⟨val, w, w1, hk, hc⟩ := hl v hv
    rw [hc, hty v hv, hd w val w1 hk]
  · intro hok hnd
    exact constructLoop_total sem p.tp p.slots s hok hnd hraw

/-- C1 on the single-slot `int` container in all-raw storage: the hypotheses hold,
`construct` completes, and the slot holds the `int` 0. -/
theorem construct_default_value_witness :
    (∀ v ∈ exSingle.slots, v.decl = exSingle.tp) ∧
    (∀ v ∈ exSingle.slots, exState.cell v.addr = .raw) ∧
    (∃ s1, construct exSem exSingle exState = .done () s1 ∧
      s1.cell 0 = .live ⟨.int, .plain 0⟩) :=
  ⟨by decide, by decide, _, rfl,
    (construct_default_value exSem exSingle (.plain 0) exState (by decide) (by decide)
      (by
        intro w val w1 h
        simp only [exSem, exSingle] at h
        injection h with h1 _
        injection h1 with h1
        exact h1.symm)).1 _ rfl ⟨0, .int⟩ (by decide)⟩

/-- C2: for a container of raw slots with element type `T` and an initializer that
is a live object of type `T` with value `x`, `T`'s copy constructor producing an equal
value: whenever `construct(c, v)` completes, every slot of `c` holds a live `T` with
value `x`, no slot is the initializer's own storage, and the initializer is as it
was; and it does complete when the slots are distinct storage and the copy
constructor does not throw. -/
theorem construct_with_copies (sem : Semantics Ty V G E) (p : Container Ty)
    (initializer : Addr) (x : Value Ty V) (s : State Ty V G)
    (hi : s.cell initializer = .live ⟨p.tp, x⟩)
    (hraw : ∀ v ∈ p.slots, s.cell v.addr = .raw)
    (hcopy : ∀ w val w1, sem.ctor p.tp [⟨p.tp, x⟩] w = (.ok val, w1) → val = x) :
    (∀ s1, construct_with sem p initializer s = .done () s1 →
        (∀ v ∈ p.slots, s1.cell v.addr = .live ⟨p.tp, x⟩ ∧ v.addr ≠ initializer) ∧
        s1.cell initializer = .live ⟨p.tp, x⟩) ∧
    ((∀ w, ∃ val w1, sem.ctor p.tp [⟨p.tp, x⟩] w = (.ok val, w1)) →
        (p.slots.map Slot.addr).Nodup →
        ∃ s1, construct_with sem p initializer s = .done () s1) := by
  have hout : ∀ v ∈ p.slots, v.addr ≠ initializer := by
    intro v hv heq
    have h1 := hraw v hv
    rw [heq, hi] at h1
    cases h1
  constructor
  · intro s1 h
    obtain ⟨_, _, hl, hf, _⟩ :=
      constructWithLoop_done sem p.tp initializer ⟨p.tp, x⟩ p.slots s s1 hi h
    refine ⟨fun v hv => ⟨?_, hout v hv⟩, ?_⟩
    · obtain ⟨val, w, w1, hk, hc⟩ := hl v hv
      rw [hc, hcopy w val w1 hk]
    · rw [hf initializer, hi]
      intro hm
      obtain ⟨u, hu, hua⟩ := List.mem_map.1 hm
      exact hout u hu hua
  · intro hok hnd
    exact constructWithLoop_total sem p.tp initializer ⟨p.tp, x⟩ p.slots s hi hok hnd hraw

/-- C2 on the three `int` slots 0, 1, 2 with the `int` 5 at address 9 as the
initializer: the hypotheses hold, `construct` completes, every slot holds 5 and the
initializer still does. -/
theorem construct_with_copies_witness :
    exSeeded.cell 9 = .live ⟨exInts.tp, .plain 5⟩ ∧
    (∀ v ∈ exInts.slots, exSeeded.cell v.addr = .raw) ∧
    (∃ s1, construct_with exSem exInts 9 exSeeded = .done () s1 ∧
      (∀ v ∈ exInts.slots, s1.cell v.addr = .live ⟨.int, .plain 5⟩ ∧ v.addr ≠ 9) ∧
      s1.cell 9 = .live ⟨.int, .plain 5⟩) :=
  ⟨by decide, by decide, _, rfl,
    (construct_with_copies exSem exInts 9 (.plain 5) exSeeded (by decide) (by decide)
      (by
        intro w val w1 h
        simp only [exSem, exInts] at h
        injection h with h1 _
        injection h1 with h1
        exact h1.symm)).1 _ rfl⟩

/-- C6: fault propagation without rollback. Take a container of distinct raw slots
`pre ++ v :: post` in which the constructors of the elements `pre` return and the
constructor of the next element `v` then signals the fault `e`. Then `construct(c)`
leaves by the exception `e`; in the state the caller observes every slot of `pre`
holds a live object of the element type, `v` and every slot of `post` are as they
were before the call (raw), and exactly the constructor calls on `pre` are
recorded. -/
theorem construct_fault_no_rollback (sem : Semantics Ty V G E) (T : Ty) (targs : List Ty)
    (pre : List (Slot Ty)) (v : Slot Ty) (post : List (Slot Ty))
    (s s1 : State Ty V G) (e : E) (w : G)
    (hraw : ∀ u ∈ pre ++ v :: post, s.cell u.addr = .raw)
    (hnd : ((pre ++ v :: post).map Slot.addr).Nodup)
    (hpre : construct sem ⟨T, targs, pre⟩ s = .done () s1)
    (hthrow : sem.ctor T [] s1.world = (.error e, w)) :
    ∃ s2, construct sem ⟨T, targs, pre ++ v :: post⟩ s = .thrown e s2 ∧
      (∀ u ∈ pre, ∃ val, s2.cell u.addr = .live ⟨T, val⟩) ∧
      (∀ u ∈ v :: post, s2.cell u.addr = s.cell u.addr ∧ s2.cell u.addr = .raw) ∧
      s2.trace = s.trace ++ pre.map (fun u => Event.constructed u.addr T) := by
  simp only [construct] at hpre ⊢
  obtain ⟨_, _, hl, hf, ht, _⟩ := constructLoop_done sem T pre s s1 hpre
  have hdisj : ∀ u ∈ v :: post, u.addr ∉ pre.map Slot.addr := by
    intro u hu hm
    rw [List.map_append, List.nodup_append] at hnd
    exact hnd.2.2 hm (List.mem_map_of_mem Slot.addr hu)
  have hv : s1.cell v.addr = .raw := by
    rw [hf _ (hdisj v (by simp))]
    exact hraw v (by simp)
  have hb : placementNew sem v.addr T [] s1 = .thrown e { s1 with world := w } := by
    unfold placementNew
    simp [hv, hthrow]
  refine ⟨{ s1 with world := w }, ?_, ?_, ?_, ht⟩
  · rw [forEach_append, hpre]
    simp only [forEach, hb]
  · intro u hu
    obtain ⟨val, _, _, _, hcell⟩ := hl u hu
    exact ⟨val, hcell⟩
  · intro u hu
    have h1 : s1.cell u.addr = s.cell u.addr := hf _ (hdisj u hu)
    have h2 : s.cell u.addr = .raw := hraw u (List.mem_append_right _ hu)
    exact ⟨h1, h1.trans h2⟩

/-- C6 on three raw `int` slots with a constructor that faults on the second
construction: the hypotheses hold, the fault 42 reaches the caller, slot 0 holds
an object and slots 1 and 2 are raw. -/
theorem construct_fault_no_rollback_witness :
    (∀ u ∈ [exSlot 0] ++ exSlot 1 :: [exSlot 2], exState.cell u.addr = .raw) ∧
    (([exSlot 0] ++ exSlot 1 :: [exSlot 2]).map Slot.addr).Nodup ∧
    (∃ s1, construct faultySem ⟨.int, [], [exSlot 0]⟩ exState = .done () s1 ∧
      faultySem.ctor .int [] s1.world = (.error 42, 1)) ∧
    (∃ s2, construct faultySem exInts exState = .thrown 42 s2 ∧
      (∃ val, s2.cell 0 = .live ⟨.int, val⟩) ∧ s2.cell 1 = .raw ∧ s2.cell 2 = .raw) :=
  ⟨by decide, by decide, ⟨_, rfl, rfl⟩,
    match construct_fault_no_rollback faultySem ExTy.int [] [exSlot 0] (exSlot 1) [exSlot 2]
        exState _ 42 1 (by decide) (by decide) rfl rfl with
    | ⟨s2, hc, hfst, hrest, _⟩ =>
      ⟨s2, hc, hfst (exSlot 0) (by decide),
        (hrest (exSlot 1) (by decide)).2, (hrest (exSlot 2) (by decide)).2⟩⟩

/-- C7, as the code has it: for a container of distinct raw slots, whatever their
declared types, `construct(c)` (when the default constructor of the first element
type `_Tp` does not throw) completes and has constructed, in iteration order, an
object of the one type `_Tp` in every slot; a slot holds an object of its own
declared type exactly when that type is `_Tp`. -/
theorem construct_uses_first_type (sem : Semantics Ty V G E) (p : Container Ty)
    (s : State Ty V G)
    (hraw : ∀ v ∈ p.slots, s.cell v.addr = .raw)
    (hnd : (p.slots.map Slot.addr).Nodup)
    (hok : ∀ w, ∃ val w1, sem.ctor p.tp [] w = (.ok val, w1)) :
    ∃ s1, construct sem p s = .done () s1 ∧
      (∀ v ∈ p.slots, ∃ val, s1.cell v.addr = .live ⟨p.tp, val⟩) ∧
      s1.trace = s.trace ++ p.slots.map (fun v => Event.constructed v.addr p.tp) ∧
      (∀ v ∈ p.slots, (∃ val, s1.cell v.addr = .live ⟨v.decl, val⟩) ↔ v.decl = p.tp) := by
  obtain ⟨s1, hc⟩ := constructLoop_total sem p.tp p.slots s hok hnd hraw
  obtain ⟨_, _, hl, _, ht, _⟩ := constructLoop_done sem p.tp p.slots s s1 hc
  have hfirst : ∀ v ∈ p.slots, ∃ val, s1.cell v.addr = .live ⟨p.tp, val⟩ := by
    intro v hv
    obtain ⟨val, _, _, _, hcell⟩ := hl v hv
    exact ⟨val, hcell⟩
  refine ⟨s1, hc, hfirst, ht, ?_⟩
  intro v hv
  obtain ⟨val, hcell⟩ := hfirst v hv
  constructor
  · rintro ⟨val1, h1⟩
    rw [hcell] at h1
    injection h1 with h2
    injection h2 with h3 _
    exact h3.symm
  · intro hdecl
    exact ⟨val, by rw [hcell, hdecl]⟩

/-- C7, as the code has it, on the container with an `int` and a `real` slot: the hypotheses
hold, and both slots receive an object of type `int`. -/
theorem construct_uses_first_type_witness :
    (∀ v ∈ exMixed.slots, exState.cell v.addr = .raw) ∧
    (exMixed.slots.map Slot.addr).Nodup ∧
    (∀ w, ∃ val w1, exSem.ctor exMixed.tp [] w = (.ok val, w1)) ∧
    (∃ s1, construct exSem exMixed exState = .done () s1 ∧
      (∀ v ∈ exMixed.slots, ∃ val, s1.cell v.addr = .live ⟨.int, val⟩)) :=
  have hok : ∀ w, ∃ val w1, exSem.ctor exMixed.tp [] w = (.ok val, w1) :=
    fun w => ⟨.plain 0, w + 1, rfl⟩
  ⟨by decide, by decide, hok,
    match construct_uses_first_type exSem exMixed exState (by decide) (by decide) hok with
    | ⟨s1, hc, hfirst, _, _⟩ => ⟨s1, hc, hfirst⟩⟩

/-- C7 does not hold of the code as worded: on the container with a slot declared `int` and a slot
declared `real`, both raw, `construct` completes and the slot declared `real` holds
an `int` (the value 0 of `int()`), so not every slot holds an object of its own
declared type. -/
theorem construct_mixed_counterexample :
    (∀ v ∈ exMixed.slots, exState.cell v.addr = .raw) ∧
    (∃ s1, construct exSem exMixed exState = .done () s1 ∧
      s1.cell 1 = .live ⟨.int, .plain 0⟩ ∧
      ¬ (∀ v ∈ exMixed.slots, ∃ val, s1.cell v.addr = .live ⟨v.decl, val⟩)) :=
  ⟨by decide, _, rfl, rfl, by
    intro h
    obtain ⟨val, hv⟩ := h ⟨1, .real⟩ (by decide)
    have hcell : (Cell.live ⟨.int, .plain 0⟩ : Cell ExTy Nat) = .live ⟨.real, val⟩ := hv
    injection hcell with h1
    injection h1 with h2 _
    cases h2⟩

/-! ## Claims about `destruct` -/

/-- C3: round trip. For a container whose slots are all raw, when `construct(c)`
completes, the following `destruct(c)` completes too, every slot of `c` is raw again,
all storage is exactly what it was before `construct` (so the number and order of the
slots, and everything else kept in storage, is unchanged), and nothing was taken from
or given back to the free store. -/
theorem construct_destruct_round_trip (sem : Semantics Ty V G E) (p : Container Ty)
    (s s1 : State Ty V G)
    (hraw : ∀ v ∈ p.slots, s.cell v.addr = .raw)
    (hc : construct sem p s = .done () s1) :
    ∃ s2, destruct sem p s1 = .done () s2 ∧
      (∀ v ∈ p.slots, s2.cell v.addr = .raw) ∧
      s2.cell = s.cell ∧ s2.heap = s.heap := by
  obtain ⟨hnd, _, hl, hf, _, hh⟩ := constructLoop_done sem p.tp p.slots s s1 hc
  have hlive : ∀ v ∈ p.slots, ∃ val, s1.cell v.addr = .live ⟨p.tp, val⟩ := by
    intro v hv
    obtain ⟨val, _, _, _, hcell⟩ := hl v hv
    exact ⟨val, hcell⟩
  obtain ⟨s2, hd⟩ := destructLoop_total sem p.tp p.slots s1 hnd hlive
  obtain ⟨_, _, hr2, hf2, _, _, hh2⟩ := destructLoop_done sem p.tp p.slots s1 s2 hd
  refine ⟨s2, hd, hr2, ?_, by rw [hh2, hh]⟩
  funext a
  by_cases ha : a ∈ p.slots.map Slot.addr
  · obtain ⟨v, hv, rfl⟩ := List.mem_map.1 ha
    rw [hr2 v hv, hraw v hv]
  · rw [hf2 a ha, hf a ha]

/-- C3 on the three raw `int` slots: the hypotheses hold and the round trip ends in
the storage it started from. -/
theorem construct_destruct_round_trip_witness :
    (∀ v ∈ exInts.slots, exState.cell v.addr = .raw) ∧
    (∃ s1, construct exSem exInts exState = .done () s1 ∧
      ∃ s2, destruct exSem exInts s1 = .done () s2 ∧
        (∀ v ∈ exInts.slots, s2.cell v.addr = .raw) ∧
        s2.cell = exState.cell ∧ s2.heap = exState.heap) :=
  ⟨by decide, _, rfl,
    construct_destruct_round_trip exSem exInts exState _ (by decide) rfl⟩

/-- C4: for a container whose slots are distinct storage, each holding a live object
of the element type, `destruct(c)` completes; it has called the destructor on the
slots in iteration order, once on each, with the destructors' effects applied in that
order; afterwards every slot is raw, all other storage is as it was, and no block
left the free store. -/
theorem destruct_each_slot_once (sem : Semantics Ty V G E) (p : Container Ty)
    (s : State Ty V G)
    (hlive : ∀ v ∈ p.slots, ∃ val, s.cell v.addr = .live ⟨p.tp, val⟩)
    (hnd : (p.slots.map Slot.addr).Nodup) :
    ∃ s1, destruct sem p s = .done () s1 ∧
      s1.trace = s.trace ++ p.slots.map (fun v => Event.destroyed v.addr p.tp) ∧
      (∀ v ∈ p.slots, (p.slots.map (fun u => Event.destroyed u.addr p.tp)).count
          (Event.destroyed v.addr p.tp) = 1) ∧
      s1.world = cleanupEffect sem p.tp s.cell p.slots s.world ∧
      (∀ v ∈ p.slots, s1.cell v.addr = .raw) ∧
      (∀ a, a ∉ p.slots.map Slot.addr → s1.cell a = s.cell a) ∧
      s1.heap = s.heap := by
  obtain ⟨s1, hd⟩ := destructLoop_total sem p.tp p.slots s hnd hlive
  obtain ⟨_, _, hr, hf, ht, hw, hh⟩ := destructLoop_done sem p.tp p.slots s s1 hd
  exact ⟨s1, hd, ht, fun v hv => destroyed_count_one p.tp p.slots v hnd hv, hw, hr, hf, hh⟩

/-- C4 on the three live `int`s at 0, 1, 2: the hypotheses hold; the destructor calls
are recorded as 0, 1, 2, the world has received three destructor effects, and the
slots are raw. -/
theorem destruct_each_slot_once_witness :
    (∀ v ∈ exInts.slots, ∃ val, exLive.cell v.addr = .live ⟨exInts.tp, val⟩) ∧
    (exInts.slots.map Slot.addr).Nodup ∧
    (∃ s1, destruct exSem exInts exLive = .done () s1 ∧
      s1.trace = [.destroyed 0 .int, .destroyed 1 .int, .destroyed 2 .int] ∧
      s1.world = 300 ∧
      (∀ v ∈ exInts.slots, s1.cell v.addr = .raw) ∧
      s1.heap = []) :=
  have hlive : ∀ v ∈ exInts.slots, ∃ val, exLive.cell v.addr = .live ⟨exInts.tp, val⟩ := by
    intro v hv
    simp only [exInts, List.mem_cons, List.mem_singleton, List.not_mem_nil, or_false] at hv
    rcases hv with rfl | rfl | rfl
    · exact ⟨.plain 10, rfl⟩
    · exact ⟨.plain 11, rfl⟩
    · exact ⟨.plain 12, rfl⟩
  have hnd : (exInts.slots.map Slot.addr).Nodup := by decide
  ⟨hlive, hnd,
    match destruct_each_slot_once exSem exInts exLive hlive hnd with
    | ⟨s1, hd, ht, _, hw, hr, _, hh⟩ => ⟨s1, hd, ht, hw, hr, hh⟩⟩

/-! ## Claims about `destruct` with a finalizer -/

/-- C5, as the code has it: for a container of any number of slots and a finalizer
that is a live object of its own (not one of the slots inside the container's
elements), `destruct(c, finalizer)` leaves the finalizer exactly as it was, so a
counter in it is incremented zero times; and the call does complete when every slot
of `c` holds a container whose slots are distinct storage with live objects of that
container's element type, none of them a slot of `c`. -/
theorem destruct_with_counter_unchanged (sem : Semantics Ty V G E) (p : Container Ty)
    (finalizer : Addr) (cnt : Object Ty V) (s : State Ty V G)
    (hfin : s.cell finalizer = .live cnt)
    (hout : finalizer ∉ (innerSlots s.cell p.slots).map Slot.addr) :
    (∀ s1, destruct_with sem p finalizer s = .done () s1 →
        s1.cell finalizer = .live cnt) ∧
    ((∀ u ∈ p.slots, ∃ ty q, s.cell u.addr = .live ⟨ty, .cont q⟩) →
      (∀ u ∈ p.slots, ∀ ty q, s.cell u.addr = .live ⟨ty, .cont q⟩ →
        ∀ x ∈ q.slots, ∃ val, s.cell x.addr = .live ⟨q.tp, val⟩) →
      ((innerSlots s.cell p.slots).map Slot.addr).Nodup →
      (∀ u ∈ p.slots, u.addr ∉ (innerSlots s.cell p.slots).map Slot.addr) →
      ∃ s1, destruct_with sem p finalizer s = .done () s1) := by
  constructor
  · intro s1 h
    obtain ⟨_, hch, _⟩ := destructWithLoop_done sem p.slots s s1 h
    rcases hch finalizer with h1 | ⟨_, h2⟩
    · rw [h1, hfin]
    · exact absurd h2 hout
  · intro hel hlive hnd hsep
    exact destructWithLoop_total sem p.slots s hel hlive hnd hsep

/-- C5, as the code has it, on three initialized slots and a counter at address 6 that stands
at 0: the hypotheses hold, the call completes, and the counter still stands at 0. -/
theorem destruct_with_counter_unchanged_witness :
    exNestedState.cell 6 = .live ⟨.counter, .plain 0⟩ ∧
    6 ∉ (innerSlots exNestedState.cell exNested.slots).map Slot.addr ∧
    (∃ s1, destruct_with exSem exNested 6 exNestedState = .done () s1 ∧
      s1.cell 6 = .live ⟨.counter, .plain 0⟩) :=
  ⟨by decide, by decide, _, rfl,
    (destruct_with_counter_unchanged exSem exNested 6 ⟨.counter, .plain 0⟩ exNestedState
      (by decide) (by decide)).1 _ rfl⟩

/-- C5 does not hold of the code as worded: on a container of three initialized slots and a finalizer
whose counter stands at 0, `destruct(c, finalizer)` completes and the counter stands
at 0, not at 3. -/
theorem destruct_with_counter_counterexample :
    exNested.slots.length = 3 ∧
    (∀ v ∈ exNested.slots, ∃ o, exNestedState.cell v.addr = .live o) ∧
    exNestedState.cell 6 = .live ⟨.counter, .plain 0⟩ ∧
    (∃ s1, destruct_with exSem exNested 6 exNestedState = .done () s1 ∧
      s1.cell 6 = .live ⟨.counter, .plain 0⟩ ∧
      s1.cell 6 ≠ .live ⟨.counter, .plain (0 + 3)⟩) :=
  ⟨by decide,
    by
      intro v hv
      simp only [exNested, List.mem_cons, List.mem_singleton, List.not_mem_nil,
        or_false] at hv
      rcases hv with rfl | rfl | rfl
      · exact ⟨_, rfl⟩
      · exact ⟨_, rfl⟩
      · exact ⟨_, rfl⟩,
    by decide, _, rfl, rfl, by decide⟩

/-- C8: the claim's postcondition, which is also the documented one of the overload
("`v` refers to raw memory, not an object"), is not what the code does. On a
container `c` whose three slots are all initialized (each holds a one-slot
container) and a finalizer at address 6, `destruct(c, finalizer)` completes and the
slots 0, 1 and 2 of `c` itself hold exactly what they held before, so none of them
is raw; what has become raw are the slots 3, 4 and 5 inside the elements, and the
finalizer has not been touched. -/
theorem destruct_with_leaves_slots_initialized :
    (∀ v ∈ exNested.slots, ∃ o, exNestedState.cell v.addr = .live o) ∧
    (∃ s1, destruct_with exSem exNested 6 exNestedState = .done () s1 ∧
      (∀ v ∈ exNested.slots, s1.cell v.addr = exNestedState.cell v.addr) ∧
      (∀ v ∈ exNested.slots, s1.cell v.addr ≠ .raw) ∧
      ¬ (∀ v ∈ exNested.slots, s1.cell v.addr = .raw) ∧
      s1.cell 3 = .raw ∧ s1.cell 4 = .raw ∧ s1.cell 5 = .raw ∧
      s1.cell 6 = exNestedState.cell 6 ∧
      s1.trace = [.destroyed 3 .int, .destroyed 4 .int, .destroyed 5 .int]) :=
  ⟨by
      intro v hv
      simp only [exNested, List.mem_cons, List.mem_singleton, List.not_mem_nil,
        or_false] at hv
      rcases hv with rfl | rfl | rfl
      · exact ⟨_, rfl⟩
      · exact ⟨_, rfl⟩
      · exact ⟨_, rfl⟩,
    _, rfl,
    by
      intro v hv
      simp only [exNested, List.mem_cons, List.mem_singleton, List.not_mem_nil,
        or_false] at hv
      rcases hv with rfl | rfl | rfl
      · rfl
      · rfl
      · rfl,
    by decide, by decide, rfl, rfl, rfl, rfl, rfl⟩

/-- C10: the finalizer overload does not use its finalizer. For every container and
any two finalizers the two calls have the same outcome; that outcome is the one of
calling the one-argument `destruct(v)` on each element `v` in iteration order; and
when the call completes, a finalizer that is not itself a slot inside an element is
unchanged, every slot inside an element of `c` is raw, and the recorded calls are
exactly the destructor calls on those inner slots, element by element. -/
theorem destruct_with_ignores_finalizer (sem : Semantics Ty V G E) (p : Container Ty)
    (f1 f2 : Addr) (s : State Ty V G) :
    destruct_with sem p f1 s = destruct_with sem p f2 s ∧
    destruct_with sem p f1 s = destruct_elements_in_order sem p s ∧
    (∀ s1, destruct_with sem p f1 s = .done () s1 →
      (f1 ∉ (innerSlots s.cell p.slots).map Slot.addr → s1.cell f1 = s.cell f1) ∧
      (∀ x ∈ innerSlots s.cell p.slots, s1.cell x.addr = .raw) ∧
      s1.trace = s.trace ++ innerEvents s.cell p.slots) := by
  refine ⟨rfl, forEach_eq_foldl_thenDestruct sem p.slots s, ?_⟩
  intro s1 h
  obtain ⟨_, hch, hraw, htr, _⟩ := destructWithLoop_done sem p.slots s s1 h
  refine ⟨?_, hraw, htr⟩
  intro hout
  rcases hch f1 with h1 | ⟨_, h2⟩
  · exact h1
  · exact absurd h2 hout

/-- C10 on three slots holding one-slot containers, with the finalizers at the
addresses 6 and 7: the calls agree, the call completes, the finalizer at 6 is
unchanged, the inner slots 3, 4, 5 are raw and their destructor calls are what is
recorded. -/
theorem destruct_with_ignores_finalizer_witness :
    destruct_with exSem exNested 6 exNestedState =
      destruct_with exSem exNested 7 exNestedState ∧
    6 ∉ (innerSlots exNestedState.cell exNested.slots).map Slot.addr ∧
    (∃ s1, destruct_with exSem exNested 6 exNestedState = .done () s1 ∧
      s1.cell 6 = exNestedState.cell 6 ∧
      (∀ x ∈ innerSlots exNestedState.cell exNested.slots, s1.cell x.addr = .raw) ∧
      s1.trace = [.destroyed 3 .int, .destroyed 4 .int, .destroyed 5 .int]) :=
  ⟨(destruct_with_ignores_finalizer exSem exNested 6 7 exNestedState).1, by decide,
    _, rfl,
    ((destruct_with_ignores_finalizer exSem exNested 6 7 exNestedState).2.2 _ rfl).1
      (by decide),
    ((destruct_with_ignores_finalizer exSem exNested 6 7 exNestedState).2.2 _ rfl).2.1,
    ((destruct_with_ignores_finalizer exSem exNested 6 7 exNestedState).2.2 _ rfl).2.2⟩

/-! ## Claims about `address_of` -/

end eop
